import Mathlib

/-!
Verification development for a pair of data-preparation utilities
(`generate_coherent_frequencies` and `load_cadence_vcsv` from
`tools/load_and_utility_functions.py`).

Modelling conventions:
* IEEE doubles are modelled as exact rationals (`ℚ`); `np.floor` is `Int.floor`,
  which on `ℚ` is floor toward negative infinity, matching numpy.
* `np.gcd` on integers is the gcd of absolute values; we use `Int.gcd`.
* numpy arrays are a shape together with the flat (row-major) data list.
* Python exceptions are modelled with an `Except` error channel whose
  constructors record exactly the exception kind (and the payload that the
  real message carries).  `generate_coherent_frequencies` contains no raise
  site for nonzero `fs` (numpy division only warns), so it is a total
  function of its inputs; theorems assume `fs ≠ 0` so that the exact-rational
  model never relies on the `q / 0 = 0` convention of `ℚ`.
-/

set_option autoImplicit false
set_option maxRecDepth 40000
set_option linter.unusedVariables false

namespace LoadUtils

/-! ### Coherent-frequency selector (source: `generate_coherent_frequencies`) -/

/-- A numpy `ndarray`: a shape and the flat (ravelled) data. A 0-d array
(`np.asarray` applied to a true Python scalar) has shape `[]` and one element. -/
structure NDArray (α : Type) where
  shape : List ℕ
  data : List α
deriving DecidableEq, Repr

/-- Result of `generate_coherent_frequencies`: a scalar pair when the input was
a true scalar (0-d array), otherwise a pair of arrays of the input's shape. -/
inductive GenResult where
  | scalar (fi : ℚ) (K : ℤ)
  | array (fi : NDArray ℚ) (K : NDArray ℤ)
deriving DecidableEq, Repr

/-- Step 3 of the source: `K = np.floor(flat / fs * N).astype(int)`, elementwise. -/
def npFloorDiv (fs : ℚ) (N : ℤ) (x : ℚ) : ℤ := ⌊x / fs * (N : ℚ)⌋

/-- Step 4 of the source: `mask = np.gcd(K, N) != 1; K[mask] -= 1`, elementwise. -/
def gcdAdjust (N : ℤ) (k : ℤ) : ℤ := if Int.gcd k N ≠ 1 then k - 1 else k

/-- The flat pipeline of the source (steps 3-5): initial cycle counts, the
single gcd correction, and `f_i_flat = K / N * fs`. -/
def coherentFlat (fs : ℚ) (N : ℤ) (flat : List ℚ) : List ℚ × List ℤ :=
  let K := (flat.map (npFloorDiv fs N)).map (gcdAdjust N)
  (K.map (fun k : ℤ => (k : ℚ) / (N : ℚ) * fs), K)

/-- Shallow embedding of `generate_coherent_frequencies(f_0, fs, N)`.
The caller's `np.asarray(f_0)` is the `NDArray` argument; `ravel` of a
row-major array is its flat data.  Steps 6-7 of the source reshape the flat
results back to the input shape and unwrap 0-d arrays via `.item()`. -/
def generate_coherent_frequencies (f0 : NDArray ℚ) (fs : ℚ) (N : ℤ) : GenResult :=
  let flat := f0.data
  let fi_flat := (coherentFlat fs N flat).1
  let K := (coherentFlat fs N flat).2
  if f0.shape.length = 0 then
    .scalar (fi_flat.headD 0) (K.headD 0)
  else
    .array ⟨f0.shape, fi_flat⟩ ⟨f0.shape, K⟩

/-- Flat integer cycle counts carried by a `GenResult`. -/
def GenResult.kData : GenResult → List ℤ
  | .scalar _ k => [k]
  | .array _ ka => ka.data

/-- Flat coherent frequencies carried by a `GenResult`. -/
def GenResult.fData : GenResult → List ℚ
  | .scalar f _ => [f]
  | .array fa _ => fa.data

/-! #### Store-level model of the same function (for the frame property).

numpy aliasing facts encoded here: `np.asarray` of an ndarray returns the same
buffer; `ravel` of a contiguous array is a view of that buffer;
`np.floor(...).astype(int)` always allocates a fresh buffer; `K[mask] -= 1`
mutates `K`'s buffer in place; `K / N * fs` allocates a fresh buffer.
The store is a list of buffers; the input `f_0` is the buffer at index `a`. -/

/-- Executes `generate_coherent_frequencies` over an explicit buffer store.
Returns the final store and the buffer indices of `f_i` and `K`
(integer values stored as rationals). -/
def genFreqStore (st : List (List ℚ)) (a : ℕ) (fs : ℚ) (N : ℤ) :
    List (List ℚ) × ℕ × ℕ :=
  let flat := st.getD a []
  let kb := st.length
  let st1 := st ++ [flat.map (fun x => ((npFloorDiv fs N x : ℤ) : ℚ))]
  let st2 := st1.set kb ((st1.getD kb []).map
    (fun k => if Int.gcd ⌊k⌋ N ≠ 1 then k - 1 else k))
  let fb := st2.length
  let st3 := st2 ++ [(st2.getD kb []).map (fun k => k / (N : ℚ) * fs)]
  (st3, fb, kb)

/-! ### Structured-trace parser (source: `load_cadence_vcsv`)

The file-reading step (`readlines`, `skiprows`) is a collaborator concern:
the embedding takes the already-selected metadata line (one line, so it
contains no newline) and the numeric block that `pd.read_csv` produced
(a rectangular grid; its column count is `DataBlock.ncols`). -/

/-- Decidable equality for `Except` results, used to evaluate concrete runs. -/
instance {ε α : Type} [DecidableEq ε] [DecidableEq α] : DecidableEq (Except ε α)
  | .error a, .error b =>
    if h : a = b then .isTrue (by rw [h]) else .isFalse (by intro hc; cases hc; exact h rfl)
  | .error _, .ok _ => .isFalse (by intro hc; cases hc)
  | .ok _, .error _ => .isFalse (by intro hc; cases hc)
  | .ok a, .ok b =>
    if h : a = b then .isTrue (by rw [h]) else .isFalse (by intro hc; cases hc; exact h rfl)

/-- Python values that can appear in a metadata record: the signal name
string, int parameter values, and float parameter values (a finite float
modelled as the exact rational its literal denotes; the `inf`/`infinity`
and `nan` spellings accepted by `float()` as dedicated values). -/
inductive PyLit where
  | str (s : String)
  | int (n : ℤ)
  | float (q : ℚ)
  | inf (neg : Bool)
  | nan
deriving DecidableEq, Repr

/-- Python exceptions that `load_cadence_vcsv` can raise (it defines no
dedicated error types; these are the uncaught built-in exceptions of the
code's operations). -/
inductive PyErr where
  | indexError
  | valueErrorFloat (tok : String)
  | valueErrorConcat
  | keyError (k : String)
  | noClosingQuote
  | noEscapedChar
deriving DecidableEq, Repr

/-- The message text each modelled exception carries (CPython additionally
wraps the token of `valueErrorFloat` in quote characters; that does not
affect any substring fact proved below). -/
def PyErr.message : PyErr → String
  | .indexError => "list index out of range"
  | .valueErrorFloat t => "could not convert string to float: " ++ t
  | .valueErrorConcat => "No objects to concatenate"
  | .keyError k => k
  | .noClosingQuote => "No closing quotation"
  | .noEscapedChar => "No escaped character"

/-- The double-quote character. -/
def dquoteChar : Char := Char.ofNat 34

/-- The single-quote character. -/
def squoteChar : Char := Char.ofNat 39

/-- The backslash character. -/
def backslashChar : Char := Char.ofNat 92

/-- Python's default whitespace class (`str.strip`, regex `\s`, ASCII part). -/
def isPySpace (c : Char) : Bool :=
  c == ' ' || c == '\t' || c == '\n' || c == '\r' || c == '\x0b' || c == '\x0c'

/-- `shlex.whitespace`, the token-splitting characters of `shlex.split`:
only space, tab, carriage return and newline — strictly narrower than
`str.strip`'s whitespace class (no `\x0b`/`\x0c`). -/
def isShlexSpace (c : Char) : Bool :=
  c == ' ' || c == '\t' || c == '\r' || c == '\n'

/-- Python `str.strip()` on a character list. -/
def pyStripChars (l : List Char) : List Char :=
  ((l.dropWhile isPySpace).reverse.dropWhile isPySpace).reverse

/-- Python `str.rstrip(",")` on a character list. -/
def rstripComma (l : List Char) : List Char :=
  (l.reverse.dropWhile (fun c => c == ',')).reverse

/-- Python `str.split(";")` (keeps empty segments; `""` splits to `[""]`). -/
def splitSemis : List Char → List (List Char)
  | [] => [[]]
  | c :: t =>
    if c = ';' then [] :: splitSemis t
    else
      match splitSemis t with
      | [] => [[c]]
      | h :: r => (c :: h) :: r

/-- Digits-to-number accumulator (the tokens fed to it are checked to be
decimal digits first). -/
def digitsToNat (l : List Char) : ℕ :=
  l.foldl (fun a c => 10 * a + (c.toNat - 48)) 0

/-- Python's digit-separator rule for numeric strings: every underscore
must sit directly between two decimal digits (`1_0` is accepted; `_1`,
`1_`, `1__0`, `1_.5`, `1_e5` are not). -/
def underscoreOk : List Char → Bool
  | c :: '_' :: d :: rest => c.isDigit && d.isDigit && underscoreOk (d :: rest)
  | '_' :: _ => false
  | _ :: rest => underscoreOk rest
  | [] => true

/-- Python `int(str)` (base 10): optional surrounding whitespace, optional
sign, then at least one decimal digit, with single underscores allowed
between digits. -/
def pyParseInt (s : String) : Option ℤ :=
  let t := pyStripChars s.data
  let su : ℤ × List Char :=
    match t with
    | c :: rest => if c = '+' then (1, rest) else if c = '-' then (-1, rest) else (1, t)
    | [] => (1, [])
  let d := su.2.filter (fun c => !(c == '_'))
  if underscoreOk su.2 && (!d.isEmpty && d.all (·.isDigit)) then
    some (su.1 * (digitsToNat d : ℤ))
  else none

/-- Mantissa of a Python float literal: `d+`, `d+.`, `d+.d+` or `.d+`.
Returns the digits as a natural, the count of fractional digits, and the
unconsumed rest. -/
def parseMantissa (u : List Char) : Option (ℕ × ℕ × List Char) :=
  let ip := u.takeWhile (·.isDigit)
  let r1 := u.dropWhile (·.isDigit)
  match r1 with
  | c :: r2 =>
    if c = '.' then
      let fp := r2.takeWhile (·.isDigit)
      let r3 := r2.dropWhile (·.isDigit)
      if ip.isEmpty && fp.isEmpty then none
      else some (digitsToNat ip * 10 ^ fp.length + digitsToNat fp, fp.length, r3)
    else if ip.isEmpty then none else some (digitsToNat ip, 0, r1)
  | [] => if ip.isEmpty then none else some (digitsToNat ip, 0, [])

/-- Exponent part of a Python float literal: empty, or `e`/`E`, optional
sign, at least one digit consuming the whole rest. -/
def parseExpPart (r : List Char) : Option ℤ :=
  match r with
  | [] => some 0
  | c :: r1 =>
    if c = 'e' ∨ c = 'E' then
      let su : ℤ × List Char :=
        match r1 with
        | c2 :: r2 => if c2 = '+' then (1, r2) else if c2 = '-' then (-1, r2) else (1, r1)
        | [] => (1, [])
      if !su.2.isEmpty && su.2.all (·.isDigit) then some (su.1 * (digitsToNat su.2 : ℤ))
      else none
    else none

/-- The `inf`/`infinity`/`nan` spellings accepted by `float` after the sign
(case-insensitive; a signed nan is still nan). -/
def pyFloatSpecial (u : List Char) (neg : Bool) : Option PyLit :=
  let w := u.map Char.toLower
  if w = "inf".data ∨ w = "infinity".data then some (.inf neg)
  else if w = "nan".data then some .nan
  else none

/-- Python `float(str)`: optional surrounding whitespace, optional sign,
then an `inf`/`infinity`/`nan` literal or a decimal literal with single
underscores allowed between digits (a finite result is the exact rational
the literal denotes). -/
def pyParseFloat (s : String) : Option PyLit :=
  let t := pyStripChars s.data
  let su : Bool × List Char :=
    match t with
    | c :: rest =>
      if c = '+' then (false, rest) else if c = '-' then (true, rest) else (false, t)
    | [] => (false, [])
  match pyFloatSpecial su.2 su.1 with
  | some l => some l
  | none =>
    if underscoreOk su.2 then
      match parseMantissa (su.2.filter (fun c => !(c == '_'))) with
      | none => none
      | some (m, fl, r) =>
        match parseExpPart r with
        | none => none
        | some e => some (.float (Rat.divInt
            ((if su.1 then -1 else 1) * (m : ℤ) * 10 ^ e.toNat)
            ((10 : ℤ) ^ (fl + (-e).toNat))))
    else none

/-- The source's per-value step: `try: v = int(val) except ValueError: v = float(val)`;
a second failure propagates the `float` ValueError. -/
def pyParseValE (v : String) : Except PyErr PyLit :=
  match pyParseInt v with
  | some n => .ok (.int n)
  | none =>
    match pyParseFloat v with
    | some l => .ok l
    | none => .error (.valueErrorFloat v)

/-- Tokenizer state of `shlex.split` (POSIX mode, whitespace_split). -/
inductive LexState where
  | normal
  | esc
  | single
  | double
  | doubleEsc
deriving DecidableEq, Repr

/-- The `shlex.split(s)` state machine (POSIX mode, whitespace splitting,
no comment characters): quotes group, a quote always starts a token (so
empty quoted tokens exist), backslash escapes the next character outside
quotes and escapes only the quote/backslash inside double quotes; an open
quote or trailing escape at end of input raises ValueError. -/
def shlexRun : List Char → LexState → Option (List Char) → List String → Except PyErr (List String)
  | [], st, cur, acc =>
    match st with
    | .normal =>
      match cur with
      | some t => .ok (acc ++ [⟨t⟩])
      | none => .ok acc
    | .esc => .error .noEscapedChar
    | _ => .error .noClosingQuote
  | c :: rest, st, cur, acc =>
    match st with
    | .normal =>
      if isShlexSpace c then
        match cur with
        | some t => shlexRun rest .normal none (acc ++ [⟨t⟩])
        | none => shlexRun rest .normal none acc
      else if c = squoteChar then shlexRun rest .single (some (cur.getD [])) acc
      else if c = dquoteChar then shlexRun rest .double (some (cur.getD [])) acc
      else if c = backslashChar then shlexRun rest .esc (some (cur.getD [])) acc
      else shlexRun rest .normal (some (cur.getD [] ++ [c])) acc
    | .esc => shlexRun rest .normal (some (cur.getD [] ++ [c])) acc
    | .single =>
      if c = squoteChar then shlexRun rest .normal cur acc
      else shlexRun rest .single (some (cur.getD [] ++ [c])) acc
    | .double =>
      if c = dquoteChar then shlexRun rest .normal cur acc
      else if c = backslashChar then shlexRun rest .doubleEsc cur acc
      else shlexRun rest .double (some (cur.getD [] ++ [c])) acc
    | .doubleEsc =>
      if c = dquoteChar ∨ c = backslashChar then
        shlexRun rest .double (some (cur.getD [] ++ [c])) acc
      else shlexRun rest .double (some (cur.getD [] ++ [backslashChar, c])) acc

/-- Python `shlex.split(base)`. -/
def shlexSplit (base : List Char) : Except PyErr (List String) :=
  shlexRun base .normal none []

/-- The source's `re.match(r"leafValue\(\s*(.*?)\s*\)", ent)`: anchored at the
start, the lazy group is the text strictly between `leafValue(` and the first
`)`, with surrounding whitespace absorbed by the greedy/lazy `\s*` pieces
(equivalently: stripped).  The metadata line is a single line, so `.`'s
no-newline restriction never bites. -/
def leafMatch (ent : List Char) : Option (List Char) :=
  if ent.take 10 = ("leafValue(".data) then
    let rest := ent.drop 10
    if rest.contains ')' then some (pyStripChars (rest.takeWhile (fun c => !(c == ')'))))
    else none
  else none

/-- Step (a) of the source's entry loop: the text handed to `shlex.split` —
the regex group for the wrapped form, otherwise `ent.split("(")[0].strip()`. -/
def entryBase (ent : List Char) : List Char :=
  match leafMatch ent with
  | some inner => inner
  | none => pyStripChars (ent.takeWhile (fun c => !(c == '(')))

/-- A metadata record is the Python dict `p`: an insertion-ordered
association list with unique keys, starting at `{"signal": parts[0]}`. -/
abbrev MetaRecord := List (String × PyLit)

/-- Python dict assignment `d[k] = v`: overwrite in place if the key exists,
else append. -/
def upsert : List (String × PyLit) → String → PyLit → List (String × PyLit)
  | [], k, v => [(k, v)]
  | e :: t, k, v => if e.1 = k then (e.1, v) :: t else e :: upsert t k v

/-- Python dict lookup `d[k]` (as an `Option`). -/
def dictGet (d : MetaRecord) (k : String) : Option PyLit :=
  (d.find? (fun e => e.1 == k)).map (·.2)

/-- The source's pair loop `for i in range(1, len(parts), 2)`: `parts[i]` is
the key and `parts[i + 1]` the value; on an odd tail the final `parts[i + 1]`
raises IndexError; each value is parsed int-first. -/
def parsePairs : List String → Except PyErr (List (String × PyLit))
  | [] => .ok []
  | [_] => .error .indexError
  | k :: v :: rest =>
    match pyParseValE v with
    | .error e => .error e
    | .ok w =>
      match parsePairs rest with
      | .error e => .error e
      | .ok tail => .ok ((k, w) :: tail)

/-- Processing of one (already stripped) header entry: select the base text,
tokenize, take `parts[0]` as the signal (IndexError when there are no
tokens), then fold the key/value pairs into the record dict. -/
def extract_record (ent : List Char) : Except PyErr MetaRecord :=
  match shlexSplit (entryBase ent) with
  | .error e => .error e
  | .ok [] => .error .indexError
  | .ok (signal :: rest) =>
    match parsePairs rest with
    | .error e => .error e
    | .ok ps => .ok (ps.foldl (fun d p => upsert d p.1 p.2) [("signal", PyLit.str signal)])

/-- The source's entry loop `for ent in raw_entries`: process each entry in
order, the first failing entry's exception propagates. -/
def extractLoop : List (List Char) → Except PyErr (List MetaRecord)
  | [] => .ok []
  | e :: rest =>
    match extract_record e with
    | .error err => .error err
    | .ok r =>
      match extractLoop rest with
      | .error err => .error err
      | .ok rs => .ok (r :: rs)

/-- Metadata extraction for the whole header line: split entries on `;`,
drop entries that strip to nothing, right-strip commas, process each entry
in order. -/
def extract_records (metaLine : String) : Except PyErr (List MetaRecord) :=
  extractLoop (((splitSemis metaLine.data).filter
    (fun e => !(pyStripChars e).isEmpty)).map (fun e => rstripComma (pyStripChars e)))

/-- The numeric block `df_raw` as produced by `pd.read_csv`: a rectangular
grid (`ncols` columns; theorems that need rectangularity assume it). -/
structure DataBlock where
  ncols : ℕ
  rows : List (List ℚ)
deriving DecidableEq, Repr

/-- `df_raw.iloc[:, c]`: the whole column, or IndexError when the positional
index is out of bounds. -/
def iloc_col (db : DataBlock) (c : ℕ) : Except PyErr (List ℚ) :=
  if c < db.ncols then .ok (db.rows.map (fun r => r.getD c 0)) else .error .indexError

/-- One row of the long-form output table. -/
structure LongRow where
  time : ℚ
  value : ℚ
  signal : PyLit
  channel : ℕ
  params : List (String × PyLit)
deriving DecidableEq, Repr

/-- One iteration of the source's channel loop: build `sub` for channel
`ip.1` with record `ip.2` from columns `2*idx` and `2*idx+1`, the record's
signal, the channel index and its remaining parameters. -/
def meltChannel (db : DataBlock) (ip : ℕ × MetaRecord) : Except PyErr (List LongRow) :=
  match iloc_col db (2 * ip.1) with
  | .error e => .error e
  | .ok tcol =>
    match iloc_col db (2 * ip.1 + 1) with
    | .error e => .error e
    | .ok vcol =>
      match dictGet ip.2 "signal" with
      | none => .error (.keyError "signal")
      | some sig => .ok ((tcol.zip vcol).map (fun tv =>
          (⟨tv.1, tv.2, sig, ip.1, ip.2.filter (fun e => !(e.1 == "signal"))⟩ : LongRow)))

/-- The source's channel loop `for idx, prm in enumerate(params)`, building
the list `long_df` of per-channel frames; a raised exception propagates. -/
def meltLoop (db : DataBlock) : List (ℕ × MetaRecord) → Except PyErr (List (List LongRow))
  | [] => .ok []
  | ip :: rest =>
    match meltChannel db ip with
    | .error e => .error e
    | .ok sub =>
      match meltLoop db rest with
      | .error e => .error e
      | .ok subs => .ok (sub :: subs)

/-- Step 4 of the source: the channel loop over `enumerate(params)`, then
`pd.concat` of the channel blocks (ValueError on an empty list of blocks,
as `pd.concat([])` raises). -/
def melt (records : List MetaRecord) (db : DataBlock) : Except PyErr (List LongRow) :=
  match meltLoop db records.enum with
  | .error e => .error e
  | .ok [] => .error .valueErrorConcat
  | .ok subs => .ok subs.flatten

/-- The signal value a record carries (`p["signal"]`; extraction always
installs the key before the pair loop, so for extracted records the default
is never used). -/
def sigOf (r : MetaRecord) : PyLit := (dictGet r "signal").getD (.str "")

/-- Shallow embedding of `load_cadence_vcsv`: metadata extraction on the
header line, then the reshape over the numeric block. -/
def load_cadence_vcsv (metaLine : String) (db : DataBlock) : Except PyErr (List LongRow) :=
  match extract_records metaLine with
  | .error e => .error e
  | .ok records => melt records db

/-! ### Header-entry builders (spec side, for the round-trip claim)

These are not code from the repository: they build a header entry from a
signal and key/value token list in the two surface forms the spec describes
(wrapped `leafValue( ... ) (units)` and bare `... (units)`). -/

/-- Join tokens with single spaces. -/
def joinTokens : List (List Char) → List Char
  | [] => []
  | [w] => w
  | w :: ws => w ++ ' ' :: joinTokens ws

/-- Inner token text of a header entry: the signal followed by the
key/value token pairs. -/
def mkInner (signal : String) (ps : List (String × String)) : String :=
  ⟨joinTokens (signal.data :: ps.flatMap (fun p => [p.1.data, p.2.data]))⟩

/-- Wrapped surface form `leafValue( inner ) (units)` (spelled out at the
character level). -/
def wrapEntry (inner units : String) : String :=
  ⟨("leafValue(".data) ++ ' ' :: inner.data ++ ' ' :: ')' :: ' ' :: '(' ::
    (units.data ++ [')'])⟩

/-- Bare surface form `inner (units)` (spelled out at the character level). -/
def bareEntry (inner units : String) : String :=
  ⟨inner.data ++ ' ' :: '(' :: (units.data ++ [')'])⟩

/-- Characters with no special role in any layer of the entry syntax
(not whitespace, quote, backslash, paren, semicolon or comma). -/
def plainChar (c : Char) : Bool :=
  !(isPySpace c) && !(c == dquoteChar) && !(c == squoteChar) && !(c == backslashChar)
    && !(c == '(') && !(c == ')') && !(c == ';') && !(c == ',')

/-- A nonempty token of plain characters. -/
def plainWord (w : String) : Prop := w.data ≠ [] ∧ ∀ c ∈ w.data, plainChar c = true

instance (w : String) : Decidable (plainWord w) := by
  unfold plainWord; infer_instance

end LoadUtils

namespace LoadUtils

/-! ### Supporting lemmas: coherent-frequency selector -/

theorem coherentFlat_snd_getD (fs : ℚ) (N : ℤ) (flat : List ℚ) (j : ℕ)
    (hj : j < flat.length) :
    (coherentFlat fs N flat).2.getD j 0 =
      gcdAdjust N (npFloorDiv fs N (flat.getD j 0)) := by
  have hx : flat[j]? = some flat[j] := List.getElem?_eq_getElem hj
  have hgd : flat.getD j 0 = flat[j] := by rw [List.getD_eq_getElem?_getD, hx]; rfl
  rw [hgd]
  show ((flat.map (npFloorDiv fs N)).map (gcdAdjust N)).getD j 0 = _
  rw [List.getD_eq_getElem?_getD, List.getElem?_map, List.getElem?_map, hx]
  rfl

theorem coherentFlat_fst_getD (fs : ℚ) (N : ℤ) (flat : List ℚ) (j : ℕ)
    (hj : j < flat.length) :
    (coherentFlat fs N flat).1.getD j 0 =
      ((coherentFlat fs N flat).2.getD j 0 : ℚ) / (N : ℚ) * fs := by
  have hx : flat[j]? = some flat[j] := List.getElem?_eq_getElem hj
  have hgd : flat.getD j 0 = flat[j] := by rw [List.getD_eq_getElem?_getD, hx]; rfl
  rw [coherentFlat_snd_getD fs N flat j hj, hgd]
  show (((flat.map (npFloorDiv fs N)).map (gcdAdjust N)).map
    (fun k : ℤ => (k : ℚ) / (N : ℚ) * fs)).getD j 0 = _
  rw [List.getD_eq_getElem?_getD, List.getElem?_map, List.getElem?_map, List.getElem?_map, hx]
  rfl

theorem gcdAdjust_eq_ite (N k0 : ℤ) :
    gcdAdjust N k0 = if Int.gcd k0 N = 1 then k0 else k0 - 1 := by
  unfold gcdAdjust
  by_cases h1 : Int.gcd k0 N = 1 <;> simp [h1]

theorem gcdAdjust_coprime (N k0 : ℤ)
    (h : Int.gcd k0 N = 1 ∨ Int.gcd (k0 - 1) N = 1) :
    Int.gcd (gcdAdjust N k0) N = 1 := by
  unfold gcdAdjust
  by_cases h1 : Int.gcd k0 N = 1
  · simp [h1]
  · rcases h with h | h
    · exact absurd h h1
    · simp [h1, h]

theorem gen_flat_eq (f0 : NDArray ℚ) (fs : ℚ) (N : ℤ)
    (h : f0.data.length = f0.shape.prod) :
    (generate_coherent_frequencies f0 fs N).kData = (coherentFlat fs N f0.data).2 ∧
    (generate_coherent_frequencies f0 fs N).fData = (coherentFlat fs N f0.data).1 := by
  rcases hs : f0.shape with _ | ⟨s, ss⟩
  · rw [hs] at h
    simp only [List.prod_nil] at h
    obtain ⟨x, hx⟩ := List.length_eq_one.mp h
    simp [generate_coherent_frequencies, hs, hx, coherentFlat,
      GenResult.kData, GenResult.fData]
  · simp [generate_coherent_frequencies, hs, GenResult.kData, GenResult.fData]

/-! ### Claims C1, C2, C3, C8, C9 -/

/-- C1 counterexample: at the valid input `f0 = 3/4`, `fs = 1 > 0`,
`N = 12 > 0`, the code returns `K = 8` with `gcd(8, 12) = 4 ≠ 1` (the initial
`K0 = 9` and the decremented `8` both share a factor with `12`), so the
claimed invariant `gcd(K, N) == 1` for every element is false. -/
theorem coprime_invariant_cex :
    (0 : ℚ) < 1 ∧ (0 : ℤ) < 12 ∧
    generate_coherent_frequencies ⟨[], [(3 : ℚ)/4]⟩ 1 12 = .scalar ((2 : ℚ)/3) 8 ∧
    Int.gcd 8 12 ≠ 1 := by
  refine ⟨by norm_num, by decide, ?_, by decide⟩
  simp only [generate_coherent_frequencies, coherentFlat, npFloorDiv, gcdAdjust, List.map]
  norm_num

/-- C1 (amended): for valid `fs > 0`, `N > 0`, every element satisfies
`f_i = K/N*fs` exactly; the coprimality `gcd(K, N) = 1` holds whenever the
initial floor estimate `K0` or `K0 - 1` is coprime to `N` (the single-step
correction), but not unconditionally. -/
theorem coherent_invariant_amended (f0 : NDArray ℚ) (fs : ℚ) (N : ℤ) (j : ℕ)
    (hfs : 0 < fs) (hN : 0 < N)
    (hlen : f0.data.length = f0.shape.prod) (hj : j < f0.data.length) :
    (generate_coherent_frequencies f0 fs N).fData.getD j 0 =
      ((generate_coherent_frequencies f0 fs N).kData.getD j 0 : ℚ) / (N : ℚ) * fs ∧
    ((Int.gcd ⌊f0.data.getD j 0 / fs * (N : ℚ)⌋ N = 1 ∨
      Int.gcd (⌊f0.data.getD j 0 / fs * (N : ℚ)⌋ - 1) N = 1) →
      Int.gcd ((generate_coherent_frequencies f0 fs N).kData.getD j 0) N = 1) := by
  obtain ⟨hk, hf⟩ := gen_flat_eq f0 fs N hlen
  rw [hk, hf, coherentFlat_fst_getD fs N f0.data j hj, coherentFlat_snd_getD fs N f0.data j hj]
  exact ⟨rfl, fun hco => gcdAdjust_coprime N (npFloorDiv fs N (f0.data.getD j 0)) hco⟩

/-- C1 amended witness: the amended invariant holds at a concrete valid
input (`f0 = [3/4, 5]` of shape `[2]`, `fs = 2`, `N = 6`, element 0). -/
theorem coherent_invariant_amended_witness :
    (generate_coherent_frequencies ⟨[2], [(3 : ℚ)/4, 5]⟩ 2 6).fData.getD 0 0 =
      ((generate_coherent_frequencies ⟨[2], [(3 : ℚ)/4, 5]⟩ 2 6).kData.getD 0 0 : ℚ) /
        ((6 : ℤ) : ℚ) * 2 ∧
    ((Int.gcd ⌊([(3 : ℚ)/4, 5].getD 0 0) / 2 * ((6 : ℤ) : ℚ)⌋ 6 = 1 ∨
      Int.gcd (⌊([(3 : ℚ)/4, 5].getD 0 0) / 2 * ((6 : ℤ) : ℚ)⌋ - 1) 6 = 1) →
      Int.gcd ((generate_coherent_frequencies ⟨[2], [(3 : ℚ)/4, 5]⟩ 2 6).kData.getD 0 0) 6 = 1) :=
  coherent_invariant_amended ⟨[2], [(3 : ℚ)/4, 5]⟩ 2 6 0
    (by norm_num) (by decide) (by decide) (by decide)

/-- C2: elementwise, the code computes `K0 = floor(f0/fs*N)` (floor toward
negative infinity), keeps `K0` when `gcd(K0, N) = 1` and decrements exactly
once otherwise, and returns `f_i = K/N*fs`; Example 1 of the spec
(`f0=1e6, fs=1e7, N=1000 → K=99, f_i=990000`) holds, and a negative `f0`
exercises the floor (not truncation) semantics:
`f0=-1/2, fs=1, N=3` gives `K0=⌊-3/2⌋=-2`, coprime, so `f_i=-2/3`. -/
theorem generate_coherent_frequencies_step :
    (∀ (f0 : NDArray ℚ) (fs : ℚ) (N : ℤ) (j : ℕ), fs ≠ 0 →
      f0.data.length = f0.shape.prod → j < f0.data.length →
      (generate_coherent_frequencies f0 fs N).kData.getD j 0 =
        (if Int.gcd ⌊f0.data.getD j 0 / fs * (N : ℚ)⌋ N = 1
          then ⌊f0.data.getD j 0 / fs * (N : ℚ)⌋
          else ⌊f0.data.getD j 0 / fs * (N : ℚ)⌋ - 1) ∧
      (generate_coherent_frequencies f0 fs N).fData.getD j 0 =
        ((generate_coherent_frequencies f0 fs N).kData.getD j 0 : ℚ) / (N : ℚ) * fs) ∧
    generate_coherent_frequencies ⟨[], [1000000]⟩ 10000000 1000 = .scalar 990000 99 ∧
    generate_coherent_frequencies ⟨[], [-(1 : ℚ)/2]⟩ 1 3 = .scalar (-(2 : ℚ)/3) (-2) := by
  refine ⟨?_, ?_, ?_⟩
  · intro f0 fs N j hfs hlen hj
    obtain ⟨hk, hf⟩ := gen_flat_eq f0 fs N hlen
    rw [hk, hf, coherentFlat_fst_getD fs N f0.data j hj,
      coherentFlat_snd_getD fs N f0.data j hj]
    exact ⟨gcdAdjust_eq_ite N (npFloorDiv fs N (f0.data.getD j 0)), rfl⟩
  · simp only [generate_coherent_frequencies, coherentFlat, npFloorDiv, gcdAdjust, List.map]
    norm_num
  · simp only [generate_coherent_frequencies, coherentFlat, npFloorDiv, gcdAdjust, List.map]
    norm_num

/-- C3 counterexample: at `fs = -1 ≤ 0` (and any `N`), the selector does not
fail: it has no validation and no raise site, and returns the normally
computed result.  The claimed `InvalidArgument` failure does not exist in
the code. -/
theorem no_invalid_argument_cex :
    (-1 : ℚ) < 0 ∧
    generate_coherent_frequencies ⟨[], [(10 : ℚ)]⟩ (-1) 5 =
      .scalar ((51 : ℚ)/5) (-51) := by
  refine ⟨by norm_num, ?_⟩
  simp only [generate_coherent_frequencies, coherentFlat, npFloorDiv, gcdAdjust, List.map]
  norm_num

/-- C3 (amended): the implementation performs no validation of `fs` or `N`.
For negative `fs` or negative `N` it returns a computed result of the
shape-appropriate form instead of raising (for `fs = 0` or `N = 0` numpy
produces non-finite values with a warning, still without an exception). -/
theorem no_validation_returns (f0 : NDArray ℚ) (fs : ℚ) (N : ℤ)
    (h : fs < 0 ∨ N < 0) :
    (f0.shape = [] → ∃ a b, generate_coherent_frequencies f0 fs N = .scalar a b) ∧
    (f0.shape ≠ [] → ∃ fa ka, generate_coherent_frequencies f0 fs N = .array fa ka) := by
  constructor
  · intro hs
    refine ⟨(coherentFlat fs N f0.data).1.headD 0,
      (coherentFlat fs N f0.data).2.headD 0, ?_⟩
    simp only [generate_coherent_frequencies]
    rw [if_pos (by rw [hs]; rfl)]
  · intro hs
    have hlen0 : ¬ f0.shape.length = 0 := fun h0 => hs (List.length_eq_zero.mp h0)
    refine ⟨⟨f0.shape, (coherentFlat fs N f0.data).1⟩,
      ⟨f0.shape, (coherentFlat fs N f0.data).2⟩, ?_⟩
    simp only [generate_coherent_frequencies]
    rw [if_neg hlen0]

/-- C3 amended witness: at the concrete invalid input `fs = -1` the selector
returns a scalar result for a scalar argument. -/
theorem no_validation_returns_witness :
    ((⟨[], [(10 : ℚ)]⟩ : NDArray ℚ).shape = [] →
      ∃ a b, generate_coherent_frequencies ⟨[], [(10 : ℚ)]⟩ (-1) 5 = .scalar a b) ∧
    ((⟨[], [(10 : ℚ)]⟩ : NDArray ℚ).shape ≠ [] →
      ∃ fa ka, generate_coherent_frequencies ⟨[], [(10 : ℚ)]⟩ (-1) 5 = .array fa ka) :=
  no_validation_returns ⟨[], [(10 : ℚ)]⟩ (-1) 5 (Or.inl (by norm_num))

/-- C8: outputs mirror the input: a 0-d (true scalar) input yields scalar
outputs (not single-element containers), and an array input of shape `S`
yields two arrays of shape `S` (with as many elements as the input). -/
theorem shape_preserved (f0 : NDArray ℚ) (fs : ℚ) (N : ℤ) :
    (f0.shape = [] → ∃ a b, generate_coherent_frequencies f0 fs N = .scalar a b) ∧
    (f0.shape ≠ [] → ∃ fa ka, generate_coherent_frequencies f0 fs N = .array fa ka ∧
      fa.shape = f0.shape ∧ ka.shape = f0.shape ∧
      fa.data.length = f0.data.length ∧ ka.data.length = f0.data.length) := by
  constructor
  · intro hs
    refine ⟨(coherentFlat fs N f0.data).1.headD 0,
      (coherentFlat fs N f0.data).2.headD 0, ?_⟩
    simp only [generate_coherent_frequencies]
    rw [if_pos (by rw [hs]; rfl)]
  · intro hs
    have hlen0 : ¬ f0.shape.length = 0 := fun h0 => hs (List.length_eq_zero.mp h0)
    refine ⟨⟨f0.shape, (coherentFlat fs N f0.data).1⟩,
      ⟨f0.shape, (coherentFlat fs N f0.data).2⟩, ?_, rfl, rfl, ?_, ?_⟩
    · simp only [generate_coherent_frequencies]
      rw [if_neg hlen0]
    · simp [coherentFlat]
    · simp [coherentFlat]

/-- C8 witness: shape preservation at a concrete scalar and a concrete
shape-`[2]` array input. -/
theorem shape_preserved_witness :
    (∃ a b, generate_coherent_frequencies ⟨[], [(2 : ℚ)]⟩ 3 7 = .scalar a b) ∧
    (∃ fa ka, generate_coherent_frequencies ⟨[2], [(1 : ℚ), 2]⟩ 3 7 = .array fa ka ∧
      fa.shape = [2] ∧ ka.shape = [2] ∧ fa.data.length = 2 ∧ ka.data.length = 2) :=
  ⟨(shape_preserved ⟨[], [(2 : ℚ)]⟩ 3 7).1 rfl,
   (shape_preserved ⟨[2], [(1 : ℚ), 2]⟩ 3 7).2 (by decide)⟩

/-- C9: the call never mutates the caller's array.  In the store model the
input buffer is unchanged by the call, and the single in-place mutation
(`K[mask] -= 1`) lands in the freshly allocated `K` buffer, whose final
contents are exactly the adjusted cycle counts of the functional model. -/
theorem input_buffer_unchanged (st : List (List ℚ)) (a : ℕ) (fs : ℚ) (N : ℤ)
    (ha : a < st.length) :
    (genFreqStore st a fs N).1.getD a [] = st.getD a [] ∧
    (genFreqStore st a fs N).1.getD (genFreqStore st a fs N).2.2 [] =
      (coherentFlat fs N (st.getD a [])).2.map (fun z : ℤ => (z : ℚ)) := by
  have hstep : (fun k : ℚ => if Int.gcd ⌊k⌋ N ≠ 1 then k - 1 else k) ∘
      (fun m : ℤ => (m : ℚ)) = (fun m : ℤ => (m : ℚ)) ∘ gcdAdjust N := by
    funext m
    simp only [Function.comp_apply, gcdAdjust, Int.floor_intCast]
    by_cases h1 : Int.gcd m N ≠ 1
    · rw [if_pos h1, if_pos h1]
      push_cast
      ring
    · rw [if_neg h1, if_neg h1]
  simp only [genFreqStore]
  generalize hL0 : (st.getD a []).map (fun x : ℚ => ((npFloorDiv fs N x : ℤ) : ℚ)) = L0
  have hmid : (st ++ [L0]).getD st.length [] = L0 := by
    rw [List.getD_eq_getElem?_getD, List.getElem?_append_right (le_refl _), Nat.sub_self]
    rfl
  rw [hmid]
  generalize hK2 : L0.map (fun k : ℚ => if Int.gcd ⌊k⌋ N ≠ 1 then k - 1 else k) = K2
  have hset : st.length < (st ++ [L0]).length := by
    rw [List.length_append, List.length_singleton]
    omega
  have hmid2 : ((st ++ [L0]).set st.length K2).getD st.length [] = K2 := by
    rw [List.getD_eq_getElem?_getD, List.getElem?_set_self hset]
    rfl
  rw [hmid2]
  have hlen1 : a < ((st ++ [L0]).set st.length K2).length := by
    rw [List.length_set, List.length_append, List.length_singleton]
    omega
  have hlen2 : st.length < ((st ++ [L0]).set st.length K2).length := by
    rw [List.length_set]
    exact hset
  have hne : st.length ≠ a := Nat.ne_of_gt ha
  constructor
  · have hget : (((st ++ [L0]).set st.length K2) ++
        [K2.map (fun k : ℚ => k / (N : ℚ) * fs)])[a]? = st[a]? := by
      rw [List.getElem?_append_left hlen1, List.getElem?_set_ne hne,
        List.getElem?_append_left ha]
    rw [List.getD_eq_getElem?_getD, hget, ← List.getD_eq_getElem?_getD]
  · have hget : (((st ++ [L0]).set st.length K2) ++
        [K2.map (fun k : ℚ => k / (N : ℚ) * fs)])[st.length]? = some K2 := by
      rw [List.getElem?_append_left hlen2, List.getElem?_set_self hset]
    rw [List.getD_eq_getElem?_getD, hget]
    show K2 = _
    rw [← hK2, ← hL0]
    have hcomp : (fun x : ℚ => ((npFloorDiv fs N x : ℤ) : ℚ)) =
        (fun m : ℤ => (m : ℚ)) ∘ npFloorDiv fs N := rfl
    rw [hcomp, List.map_map, ← Function.comp_assoc, hstep]
    simp only [coherentFlat, List.map_map]
    rw [Function.comp_assoc]

/-- C9 witness: the frame property at a concrete two-buffer store. -/
theorem input_buffer_unchanged_witness :
    (genFreqStore [[(1 : ℚ)], [2]] 0 1 2).1.getD 0 [] = [[(1 : ℚ)], [2]].getD 0 [] ∧
    (genFreqStore [[(1 : ℚ)], [2]] 0 1 2).1.getD
        (genFreqStore [[(1 : ℚ)], [2]] 0 1 2).2.2 [] =
      (coherentFlat 1 2 ([[(1 : ℚ)], [2]].getD 0 [])).2.map (fun z : ℤ => (z : ℚ)) :=
  input_buffer_unchanged [[(1 : ℚ)], [2]] 0 1 2 (by decide)

/-! ### Supporting lemmas: reshape (`melt`) -/

/-- The long-form row the source emits for channel `i`, record `prm` and
data row `r`. -/
def mkLongRow (i : ℕ) (prm : MetaRecord) (r : List ℚ) : LongRow :=
  ⟨r.getD (2 * i) 0, r.getD (2 * i + 1) 0, sigOf prm, i,
    prm.filter (fun e => !(e.1 == "signal"))⟩

theorem dictGet_some_iff (d : MetaRecord) (k0 : String) :
    (∃ s, dictGet d k0 = some s) ↔ k0 ∈ d.map Prod.fst := by
  cases hfind : d.find? (fun e => e.1 == k0) with
  | none =>
    rw [List.find?_eq_none] at hfind
    simp only [dictGet, List.find?_eq_none.mpr hfind, Option.map_none']
    constructor
    · rintro ⟨s, hs⟩
      cases hs
    · intro hmem
      obtain ⟨x, hx, hfst⟩ := List.mem_map.mp hmem
      exact absurd (by simp [hfst]) (hfind x hx)
  | some e =>
    simp only [dictGet, hfind, Option.map_some']
    constructor
    · intro _
      have hp := List.find?_some hfind
      have hmem := List.mem_of_find?_eq_some hfind
      exact List.mem_map.mpr ⟨e, hmem, by simpa using hp⟩
    · intro _
      exact ⟨e.2, rfl⟩

theorem meltChannel_ok (db : DataBlock) (ip : ℕ × MetaRecord)
    (hsig : ∃ s, dictGet ip.2 "signal" = some s)
    (hcol : 2 * ip.1 + 1 < db.ncols) :
    meltChannel db ip = .ok (db.rows.map (mkLongRow ip.1 ip.2)) := by
  obtain ⟨s, hs⟩ := hsig
  have h2 : 2 * ip.1 < db.ncols := by omega
  have hsig2 : sigOf ip.2 = s := by rw [sigOf, hs]; rfl
  simp only [meltChannel, iloc_col, if_pos h2, if_pos hcol, hs, List.zip_map',
    List.map_map]
  congr 1
  refine List.map_congr_left fun r hr => ?_
  simp [mkLongRow, hsig2]

theorem meltChannel_err (db : DataBlock) (ip : ℕ × MetaRecord)
    (hcol : db.ncols ≤ 2 * ip.1 + 1) :
    meltChannel db ip = .error PyErr.indexError := by
  by_cases h2 : 2 * ip.1 < db.ncols
  · simp only [meltChannel, iloc_col, if_pos h2, if_neg (by omega : ¬ 2 * ip.1 + 1 < db.ncols)]
  · simp only [meltChannel, iloc_col, if_neg h2]

theorem meltLoop_ok (db : DataBlock) :
    ∀ (recs : List MetaRecord) (n : ℕ),
      (∀ r ∈ recs, ∃ s, dictGet r "signal" = some s) →
      2 * n + 2 * recs.length ≤ db.ncols →
      meltLoop db (recs.enumFrom n) =
        .ok ((recs.enumFrom n).map (fun ip => db.rows.map (mkLongRow ip.1 ip.2)))
  | [], _, _, _ => rfl
  | r :: rs, n, hsig, hcols => by
    rw [List.enumFrom_cons]
    have h1 : meltChannel db (n, r) = .ok (db.rows.map (mkLongRow n r)) :=
      meltChannel_ok db (n, r) (hsig r (List.mem_cons_self r rs))
        (by simp only [List.length_cons] at hcols; omega)
    have h2 := meltLoop_ok db rs (n + 1)
      (fun x hx => hsig x (List.mem_cons_of_mem r hx))
      (by simp only [List.length_cons] at hcols; omega)
    simp only [meltLoop, h1, h2, List.map_cons]

theorem meltLoop_err (db : DataBlock) :
    ∀ (recs : List MetaRecord) (n : ℕ), recs ≠ [] →
      (∀ r ∈ recs, ∃ s, dictGet r "signal" = some s) →
      db.ncols < 2 * n + 2 * recs.length →
      meltLoop db (recs.enumFrom n) = .error PyErr.indexError
  | [], _, hne, _, _ => absurd rfl hne
  | r :: rs, n, _, hsig, hcols => by
    rw [List.enumFrom_cons]
    by_cases hfit : 2 * n + 2 ≤ db.ncols
    · have h1 : meltChannel db (n, r) = .ok (db.rows.map (mkLongRow n r)) :=
        meltChannel_ok db (n, r) (hsig r (List.mem_cons_self r rs)) (by omega)
      have hrs : rs ≠ [] := by
        intro h0
        rw [h0] at hcols
        simp only [List.length_cons, List.length_nil] at hcols
        omega
      have h2 := meltLoop_err db rs (n + 1) hrs
        (fun x hx => hsig x (List.mem_cons_of_mem r hx))
        (by simp only [List.length_cons] at hcols; omega)
      simp only [meltLoop, h1, h2]
    · have h1 : meltChannel db (n, r) = .error PyErr.indexError :=
        meltChannel_err db (n, r) (by omega)
      simp only [meltLoop, h1]

theorem sum_map_const {α : Type} : ∀ (l : List α) (c : ℕ),
    (l.map (fun _ => c)).sum = l.length * c
  | [], c => by simp
  | x :: xs, c => by
    simp only [List.map_cons, List.sum_cons, List.length_cons, sum_map_const xs c,
      Nat.succ_mul]
    omega

theorem melt_of_meltLoop_cons (records : List MetaRecord) (db : DataBlock)
    (X : List LongRow) (XS : List (List LongRow))
    (h : meltLoop db records.enum = .ok (X :: XS)) :
    melt records db = .ok (X :: XS).flatten := by
  rw [melt, h]

/-! ### Claims C5, C6, C10 -/

/-- C5 counterexample: one metadata record against a 3-column block —
`3 ≠ 2·1`, yet the parser succeeds (the surplus column is ignored), so
"fails if and only if the column count is not exactly 2·M" is false; there
is also no dedicated SchemaMismatch error in the code. -/
theorem schema_mismatch_iff_cex :
    melt [[("signal", PyLit.str "A")]] ⟨3, [[1, 2, 3]]⟩ =
      .ok [⟨1, 2, PyLit.str "A", 0, []⟩] ∧
    (3 : ℕ) ≠ 2 * 1 := by
  exact ⟨by decide, by decide⟩

/-- C5 (amended): for a nonempty record list (each record carrying its
signal key, as every parsed record does), the reshape fails iff the block
has FEWER than `2·M` columns, and the failure is an uncaught IndexError
from positional column access (the code has no SchemaMismatch error);
no partial output is returned on failure.  Blocks with more than `2·M`
columns are accepted. -/
theorem melt_fails_iff (records : List MetaRecord) (db : DataBlock)
    (hne : records ≠ [])
    (hsig : ∀ r ∈ records, "signal" ∈ r.map Prod.fst)
    (hrect : ∀ r ∈ db.rows, r.length = db.ncols) :
    ((∃ e, melt records db = .error e) ↔ db.ncols < 2 * records.length) ∧
    (db.ncols < 2 * records.length → melt records db = .error PyErr.indexError) := by
  have hsig2 : ∀ r ∈ records, ∃ s, dictGet r "signal" = some s :=
    fun r hr => (dictGet_some_iff r "signal").mpr (hsig r hr)
  have henum : records.enum = records.enumFrom 0 := rfl
  by_cases hlt : db.ncols < 2 * records.length
  · have herr := meltLoop_err db records 0 hne hsig2 (by omega)
    have hm : melt records db = .error PyErr.indexError := by
      rw [melt, henum, herr]
    exact ⟨⟨fun _ => hlt, fun _ => ⟨_, hm⟩⟩, fun _ => hm⟩
  · have hok := meltLoop_ok db records 0 hsig2 (by omega)
    rcases records with _ | ⟨r, rs⟩
    · exact absurd rfl hne
    · have hcons : meltLoop db ((r :: rs)).enum =
          .ok ((db.rows.map (mkLongRow 0 r)) ::
            (rs.enumFrom 1).map (fun ip => db.rows.map (mkLongRow ip.1 ip.2))) := by
        rw [henum, hok]
        simp only [List.enumFrom_cons, List.map_cons]
      have hm := melt_of_meltLoop_cons (r :: rs) db _ _ hcons
      refine ⟨⟨fun ⟨e, he⟩ => ?_, fun h => absurd h hlt⟩, fun h => absurd h hlt⟩
      rw [hm] at he
      cases he

/-- C5 amended witness: at one record and a 1-column block the reshape
fails with IndexError, and the iff holds. -/
theorem melt_fails_iff_witness :
    ((∃ e, melt [[("signal", PyLit.str "A")]] ⟨1, [[5]]⟩ = .error e) ↔ (1 : ℕ) < 2 * 1) ∧
    ((1 : ℕ) < 2 * 1 →
      melt [[("signal", PyLit.str "A")]] ⟨1, [[5]]⟩ = .error PyErr.indexError) :=
  melt_fails_iff [[("signal", PyLit.str "A")]] ⟨1, [[5]]⟩ (by decide)
    (by decide) (by decide)

/-- C6: on a valid block (`ncols = 2·M`, `M ≥ 1`, rectangular), the output
is exactly the channel blocks concatenated in channel order with row order
preserved: row `r` of channel `i` carries `time = data[r, 2i]`,
`value = data[r, 2i+1]`, the record's signal, `channel = i` and the
record's remaining parameters; the row count is `R·M`. -/
theorem melt_long_form (records : List MetaRecord) (db : DataBlock)
    (hne : records ≠ [])
    (hsig : ∀ r ∈ records, "signal" ∈ r.map Prod.fst)
    (hrect : ∀ r ∈ db.rows, r.length = db.ncols)
    (hcols : db.ncols = 2 * records.length) :
    melt records db =
      .ok (records.enum.flatMap (fun ip => db.rows.map (mkLongRow ip.1 ip.2))) ∧
    (records.enum.flatMap (fun ip => db.rows.map (mkLongRow ip.1 ip.2))).length =
      db.rows.length * records.length := by
  have hsig2 : ∀ r ∈ records, ∃ s, dictGet r "signal" = some s :=
    fun r hr => (dictGet_some_iff r "signal").mpr (hsig r hr)
  have henum : records.enum = records.enumFrom 0 := rfl
  have hok := meltLoop_ok db records 0 hsig2 (by omega)
  constructor
  · rcases records with _ | ⟨r, rs⟩
    · exact absurd rfl hne
    · have hcons : meltLoop db ((r :: rs)).enum =
          .ok ((db.rows.map (mkLongRow 0 r)) ::
            (rs.enumFrom 1).map (fun ip => db.rows.map (mkLongRow ip.1 ip.2))) := by
        rw [henum, hok]
        simp only [List.enumFrom_cons, List.map_cons]
      rw [melt_of_meltLoop_cons (r :: rs) db _ _ hcons, List.flatMap_def, henum]
      simp only [List.enumFrom_cons, List.map_cons]
  · rw [List.length_flatMap]
    have hconst : List.map (List.length ∘ fun ip : ℕ × MetaRecord =>
        db.rows.map (mkLongRow ip.1 ip.2)) records.enum =
        records.enum.map (fun _ => db.rows.length) :=
      List.map_congr_left (fun ip _ => by simp [Function.comp_apply])
    rw [hconst, sum_map_const, List.enum_length, Nat.mul_comm]

/-- C6 witness: two channels, two rows, four columns — ten fields checked
via the instantiated conclusion, row count `2·2`. -/
theorem melt_long_form_witness :
    melt [[("signal", PyLit.str "A")], [("signal", PyLit.str "B")]]
        ⟨4, [[1, 2, 3, 4], [5, 6, 7, 8]]⟩ =
      .ok (([[("signal", PyLit.str "A")], [("signal", PyLit.str "B")]].enum).flatMap
        (fun ip => [[(1 : ℚ), 2, 3, 4], [5, 6, 7, 8]].map (mkLongRow ip.1 ip.2))) ∧
    (([[("signal", PyLit.str "A")], [("signal", PyLit.str "B")]].enum).flatMap
        (fun ip => [[(1 : ℚ), 2, 3, 4], [5, 6, 7, 8]].map (mkLongRow ip.1 ip.2))).length =
      2 * 2 :=
  melt_long_form [[("signal", PyLit.str "A")], [("signal", PyLit.str "B")]]
    ⟨4, [[1, 2, 3, 4], [5, 6, 7, 8]]⟩ (by decide) (by decide) (by decide) (by decide)

/-! ### Supporting lemmas: extracted records always carry their signal key -/

theorem upsert_keys_mem : ∀ (d : List (String × PyLit)) (k : String) (v : PyLit)
    (k0 : String), k0 ∈ d.map Prod.fst → k0 ∈ (upsert d k v).map Prod.fst
  | [], _, _, _, h => absurd h (by simp)
  | e :: t, k, v, k0, h => by
    rw [List.map_cons] at h
    by_cases he : e.1 = k
    · simp only [upsert, if_pos he, List.map_cons]
      exact h
    · simp only [upsert, if_neg he, List.map_cons]
      rcases List.mem_cons.mp h with h | h
      · exact List.mem_cons.mpr (Or.inl h)
      · exact List.mem_cons.mpr (Or.inr (upsert_keys_mem t k v k0 h))

theorem foldl_upsert_keys : ∀ (ps : List (String × PyLit)) (d : List (String × PyLit))
    (k0 : String), k0 ∈ d.map Prod.fst →
    k0 ∈ (ps.foldl (fun acc p => upsert acc p.1 p.2) d).map Prod.fst
  | [], _, _, h => h
  | p :: pt, d, k0, h =>
    foldl_upsert_keys pt (upsert d p.1 p.2) k0 (upsert_keys_mem d p.1 p.2 k0 h)

theorem extract_record_signal (ent : List Char) (r : MetaRecord)
    (h : extract_record ent = .ok r) : "signal" ∈ r.map Prod.fst := by
  unfold extract_record at h
  cases hsp : shlexSplit (entryBase ent) with
  | error e => rw [hsp] at h; cases h
  | ok parts =>
    rw [hsp] at h
    cases parts with
    | nil => cases h
    | cons sig rest =>
      replace h : (match parsePairs rest with
          | Except.error e => (Except.error e : Except PyErr MetaRecord)
          | Except.ok ps => Except.ok
              (ps.foldl (fun d p => upsert d p.1 p.2) [("signal", PyLit.str sig)])) =
          Except.ok r := h
      cases hpp : parsePairs rest with
      | error e => rw [hpp] at h; cases h
      | ok ps =>
        rw [hpp] at h
        cases h
        exact foldl_upsert_keys ps [("signal", PyLit.str sig)] "signal" (by simp)

theorem extractLoop_signal : ∀ (raws : List (List Char)) (records : List MetaRecord),
    extractLoop raws = .ok records → ∀ r ∈ records, "signal" ∈ r.map Prod.fst
  | [], records, h => by
    cases h
    intro r hr
    cases hr
  | e :: rest, records, h => by
    unfold extractLoop at h
    cases h1 : extract_record e <;> rw [h1] at h
    · cases h
    case ok r0 =>
      cases h2 : extractLoop rest <;> rw [h2] at h
      · cases h
      case ok rs =>
        cases h
        intro r hr
        rcases List.mem_cons.mp hr with rfl | hr
        · exact extract_record_signal e r h1
        · exact extractLoop_signal rest rs h2 r hr

/-! ### Claim C10 -/

theorem getD_take (r : List ℚ) (m c : ℕ) (h : c < m) :
    (r.take m).getD c 0 = r.getD c 0 := by
  rw [List.getD_eq_getElem?_getD, List.getD_eq_getElem?_getD, List.getElem?_take, if_pos h]

theorem mkLongRow_take (i : ℕ) (prm : MetaRecord) (row : List ℚ) (m : ℕ)
    (h : 2 * i + 1 < m) :
    mkLongRow i prm (row.take m) = mkLongRow i prm row := by
  unfold mkLongRow
  rw [getD_take row m (2 * i) (by omega), getD_take row m (2 * i + 1) h]

theorem parsePairs_odd : ∀ (l : List String), l.length % 2 = 1 →
    ∀ out, parsePairs l ≠ .ok out
  | [], h, _ => by simp at h
  | [x], _, out => by intro hc; cases hc
  | k :: v :: rest, h, out => by
    have hr : rest.length % 2 = 1 := by
      simp only [List.length_cons] at h
      omega
    intro hc
    replace hc : (match pyParseValE v with
        | Except.error e => (Except.error e : Except PyErr (List (String × PyLit)))
        | Except.ok w =>
          match parsePairs rest with
          | Except.error e => .error e
          | Except.ok tail => .ok ((k, w) :: tail)) = Except.ok out := hc
    cases hv : pyParseValE v <;> rw [hv] at hc
    · cases hc
    · cases hp : parsePairs rest <;> rw [hp] at hc
      · cases hc
      case ok tail => exact parsePairs_odd rest hr tail hp

theorem extract_record_cons (ent : List Char) (sig : String) (rest : List String)
    (h : shlexSplit (entryBase ent) = .ok (sig :: rest)) :
    extract_record ent = (match parsePairs rest with
      | .error e => .error e
      | .ok ps => .ok (ps.foldl (fun d p => upsert d p.1 p.2)
          [("signal", PyLit.str sig)])) := by
  unfold extract_record
  rw [h]

theorem parsePairs_first_bad : ∀ (pre : List (String × String)) (k v : String)
    (post : List String),
    (∀ p ∈ pre, ∃ w, pyParseValE p.2 = .ok w) →
    pyParseValE v = .error (PyErr.valueErrorFloat v) →
    parsePairs (pre.flatMap (fun p => [p.1, p.2]) ++ k :: v :: post) =
      .error (PyErr.valueErrorFloat v)
  | [], k, v, post, _, hv => by
    show (match pyParseValE v with
      | Except.error e => (Except.error e : Except PyErr (List (String × PyLit)))
      | Except.ok ww =>
        match parsePairs post with
        | Except.error e => .error e
        | Except.ok tail => .ok ((k, ww) :: tail)) = _
    rw [hv]
  | p :: pt, k, v, post, hpre, hv => by
    obtain ⟨w, hw⟩ := hpre p (List.mem_cons_self p pt)
    show (match pyParseValE p.2 with
      | Except.error e => (Except.error e : Except PyErr (List (String × PyLit)))
      | Except.ok ww =>
        match parsePairs (pt.flatMap (fun p => [p.1, p.2]) ++ k :: v :: post) with
        | Except.error e => .error e
        | Except.ok tail => .ok ((p.1, ww) :: tail)) = _
    rw [hw, parsePairs_first_bad pt k v post
      (fun x hx => hpre x (List.mem_cons_of_mem p hx)) hv]

theorem plainChar_props (c : Char) (h : plainChar c = true) :
    isPySpace c = false ∧ c ≠ dquoteChar ∧ c ≠ squoteChar ∧ c ≠ backslashChar ∧
    c ≠ '(' ∧ c ≠ ')' ∧ c ≠ ';' ∧ c ≠ ',' := by
  simp only [plainChar, Bool.and_eq_true, Bool.not_eq_true'] at h
  obtain ⟨⟨⟨⟨⟨⟨⟨h1, h2⟩, h3⟩, h4⟩, h5⟩, h6⟩, h7⟩, h8⟩ := h
  exact ⟨h1, by simpa using h2, by simpa using h3, by simpa using h4,
    by simpa using h5, by simpa using h6, by simpa using h7, by simpa using h8⟩

theorem isShlexSpace_false (c : Char) (h : isPySpace c = false) :
    isShlexSpace c = false := by
  unfold isPySpace at h
  unfold isShlexSpace
  cases h1 : (c == ' ') <;> cases h2 : (c == '\t') <;> cases h3 : (c == '\r') <;>
    cases h4 : (c == '\n') <;> simp_all

theorem shlexRun_plain_chars : ∀ (w rest : List Char) (cur : List Char) (acc : List String),
    (∀ c ∈ w, plainChar c = true) →
    shlexRun (w ++ rest) .normal (some cur) acc = shlexRun rest .normal (some (cur ++ w)) acc
  | [], rest, cur, acc, _ => by simp
  | c :: w, rest, cur, acc, hw => by
    obtain ⟨h1, h2, h3, h4, _⟩ := plainChar_props c (hw c (List.mem_cons_self c w))
    have hs := isShlexSpace_false c h1
    show shlexRun (c :: (w ++ rest)) .normal (some cur) acc = _
    simp only [shlexRun, hs, Bool.false_eq_true, if_false, if_neg h3, if_neg h2, if_neg h4,
      Option.getD_some]
    rw [shlexRun_plain_chars w rest (cur ++ [c]) acc
      (fun x hx => hw x (List.mem_cons_of_mem c hx))]
    simp

theorem shlexRun_plain_all (w : List Char) (cur : List Char) (acc : List String)
    (h : ∀ c ∈ w, plainChar c = true) :
    shlexRun w .normal (some cur) acc = .ok (acc ++ [⟨cur ++ w⟩]) := by
  have h2 := shlexRun_plain_chars w [] cur acc h
  rw [List.append_nil] at h2
  rw [h2]
  rfl

theorem shlexRun_space (rest : List Char) (t : List Char) (acc : List String) :
    shlexRun (' ' :: rest) .normal (some t) acc =
      shlexRun rest .normal none (acc ++ [⟨t⟩]) := by
  have hsp : isShlexSpace ' ' = true := rfl
  simp only [shlexRun, hsp, if_true]

theorem shlexRun_joinTokens : ∀ (ws : List (List Char)) (acc : List String),
    (∀ w ∈ ws, w ≠ [] ∧ ∀ c ∈ w, plainChar c = true) →
    shlexRun (joinTokens ws) .normal none acc =
      .ok (acc ++ ws.map (fun w => (⟨w⟩ : String)))
  | [], acc, _ => by simp [joinTokens, shlexRun]
  | [w], acc, hws => by
    obtain ⟨hne, hpl⟩ := hws w (by simp)
    obtain ⟨c, w', rfl⟩ : ∃ c w', w = c :: w' := by
      cases w with
      | nil => exact absurd rfl hne
      | cons c w' => exact ⟨c, w', rfl⟩
    obtain ⟨h1, h2, h3, h4, _⟩ := plainChar_props c (hpl c (by simp))
    have hs := isShlexSpace_false c h1
    show shlexRun (c :: w') .normal none acc = _
    simp only [shlexRun, hs, Bool.false_eq_true, if_false, if_neg h3, if_neg h2, if_neg h4,
      Option.getD_none, List.nil_append]
    rw [shlexRun_plain_all w' [c] acc (fun x hx => hpl x (List.mem_cons_of_mem c hx))]
    simp
  | w :: w2 :: ws, acc, hws => by
    obtain ⟨hne, hpl⟩ := hws w (by simp)
    obtain ⟨c, w', rfl⟩ : ∃ c w', w = c :: w' := by
      cases w with
      | nil => exact absurd rfl hne
      | cons c w' => exact ⟨c, w', rfl⟩
    obtain ⟨h1, h2, h3, h4, _⟩ := plainChar_props c (hpl c (by simp))
    have hs := isShlexSpace_false c h1
    show shlexRun (c :: (w' ++ ' ' :: joinTokens (w2 :: ws))) .normal none acc = _
    simp only [shlexRun, hs, Bool.false_eq_true, if_false, if_neg h3, if_neg h2, if_neg h4,
      Option.getD_none, List.nil_append]
    rw [shlexRun_plain_chars w' (' ' :: joinTokens (w2 :: ws)) [c] acc
      (fun x hx => hpl x (List.mem_cons_of_mem c hx))]
    rw [shlexRun_space]
    have hrec := shlexRun_joinTokens (w2 :: ws) (acc ++ [(⟨[c] ++ w'⟩ : String)])
      (fun x hx => hws x (List.mem_cons_of_mem (c :: w') hx))
    rw [hrec]
    simp

theorem shlexSplit_joinTokens (ws : List (List Char))
    (h : ∀ w ∈ ws, w ≠ [] ∧ ∀ c ∈ w, plainChar c = true) :
    shlexSplit (joinTokens ws) = .ok (ws.map (fun w => (⟨w⟩ : String))) := by
  rw [shlexSplit, shlexRun_joinTokens ws [] h]
  simp

theorem strip_of_ends (l : List Char) (c d : Char) (t t' : List Char)
    (hl : l = c :: t) (hr : l.reverse = d :: t')
    (hc : isPySpace c = false) (hd : isPySpace d = false) :
    pyStripChars l = l := by
  unfold pyStripChars
  rw [hl, List.dropWhile_cons]
  simp only [hc, Bool.false_eq_true, if_false]
  rw [← hl, hr, List.dropWhile_cons]
  simp only [hd, Bool.false_eq_true, if_false]
  rw [← hr, List.reverse_reverse]

theorem strip_pad_right (l : List Char) (c d : Char) (t t' : List Char)
    (hl : l = c :: t) (hr : l.reverse = d :: t')
    (hc : isPySpace c = false) (hd : isPySpace d = false) :
    pyStripChars (l ++ [' ']) = l := by
  unfold pyStripChars
  rw [hl, List.cons_append, List.dropWhile_cons]
  simp only [hc, Bool.false_eq_true, if_false]
  rw [← List.cons_append, ← hl]
  rw [show (l ++ [' ']).reverse = ' ' :: l.reverse from by simp]
  rw [List.dropWhile_cons]
  simp only [show isPySpace ' ' = true from rfl, if_true]
  rw [hr, List.dropWhile_cons]
  simp only [hd, Bool.false_eq_true, if_false]
  rw [← hr, List.reverse_reverse]

theorem strip_pad_both (l : List Char) (c d : Char) (t t' : List Char)
    (hl : l = c :: t) (hr : l.reverse = d :: t')
    (hc : isPySpace c = false) (hd : isPySpace d = false) :
    pyStripChars (' ' :: l ++ [' ']) = l := by
  have h2 := strip_pad_right l c d t t' hl hr hc hd
  unfold pyStripChars at h2 ⊢
  rw [List.cons_append, List.dropWhile_cons]
  simp only [show isPySpace ' ' = true from rfl, if_true]
  exact h2

theorem rstrip_of_last (l : List Char) (d : Char) (t' : List Char)
    (hr : l.reverse = d :: t') (hd : (d == ',') = false) :
    rstripComma l = l := by
  unfold rstripComma
  rw [hr, List.dropWhile_cons]
  simp only [hd, Bool.false_eq_true, if_false]
  rw [← hr, List.reverse_reverse]

theorem splitSemis_no_semi : ∀ (l : List Char), (∀ c ∈ l, c ≠ ';') → splitSemis l = [l]
  | [], _ => rfl
  | c :: t, h => by
    have hc : ¬ c = ';' := h c (by simp)
    simp only [splitSemis, if_neg hc,
      splitSemis_no_semi t (fun x hx => h x (List.mem_cons_of_mem c hx))]

theorem joinTokens_chars : ∀ (ws : List (List Char)),
    (∀ w ∈ ws, ∀ c ∈ w, plainChar c = true) →
    ∀ c ∈ joinTokens ws, plainChar c = true ∨ c = ' '
  | [], _, c, hc => absurd hc (by simp [joinTokens])
  | [w], h, c, hc => Or.inl (h w (by simp) c (by simpa [joinTokens] using hc))
  | w :: w2 :: ws, h, c, hc => by
    rw [show joinTokens (w :: w2 :: ws) = w ++ ' ' :: joinTokens (w2 :: ws) from rfl] at hc
    rcases List.mem_append.mp hc with hc | hc
    · exact Or.inl (h w (by simp) c hc)
    · rcases List.mem_cons.mp hc with rfl | hc
      · exact Or.inr rfl
      · exact joinTokens_chars (w2 :: ws)
          (fun x hx => h x (List.mem_cons_of_mem w hx)) c hc

theorem joinTokens_head (c : Char) (w : List Char) (ws : List (List Char)) :
    ∃ t, joinTokens ((c :: w) :: ws) = c :: t := by
  cases ws with
  | nil => exact ⟨w, rfl⟩
  | cons w2 ws => exact ⟨w ++ ' ' :: joinTokens (w2 :: ws), rfl⟩

theorem joinTokens_last : ∀ (ws : List (List Char)), ws ≠ [] →
    (∀ w ∈ ws, w ≠ [] ∧ ∀ c ∈ w, plainChar c = true) →
    ∃ d t', (joinTokens ws).reverse = d :: t' ∧ plainChar d = true
  | [], hne, _ => absurd rfl hne
  | [w], _, h => by
    obtain ⟨hne, hpl⟩ := h w (by simp)
    cases hw : w.reverse with
    | nil => exact absurd (List.reverse_eq_nil_iff.mp hw) hne
    | cons d t' =>
      refine ⟨d, t', by simpa [joinTokens] using hw, ?_⟩
      have hmem : d ∈ w.reverse := by rw [hw]; simp
      exact hpl d (List.mem_reverse.mp hmem)
  | w :: w2 :: ws, _, h => by
    obtain ⟨d, t', hd, hdp⟩ := joinTokens_last (w2 :: ws) (by simp)
      (fun x hx => h x (List.mem_cons_of_mem w hx))
    refine ⟨d, t' ++ ([' '] ++ w.reverse), ?_, hdp⟩
    show (w ++ ' ' :: joinTokens (w2 :: ws)).reverse = _
    rw [List.reverse_append,
      show (' ' :: joinTokens (w2 :: ws)).reverse =
        (joinTokens (w2 :: ws)).reverse ++ [' '] from by simp, hd]
    simp

theorem takeWhile_append_all {p : Char → Bool} : ∀ (l r : List Char),
    (∀ c ∈ l, p c = true) →
    List.takeWhile p (l ++ r) = l ++ List.takeWhile p r
  | [], _, _ => rfl
  | c :: t, r, h => by
    rw [List.cons_append, List.takeWhile_cons]
    simp only [h c (by simp), if_true]
    rw [takeWhile_append_all t r (fun x hx => h x (List.mem_cons_of_mem c hx)),
      List.cons_append]

/-! ### Entry-base computation on the two surface forms -/

theorem entryBase_wrap (inner units : List Char)
    (hchars : ∀ c ∈ inner, plainChar c = true ∨ c = ' ')
    (hhead : ∃ c t, inner = c :: t ∧ plainChar c = true)
    (hlast : ∃ d t', inner.reverse = d :: t' ∧ plainChar d = true) :
    entryBase (("leafValue(".data) ++ ' ' :: inner ++ ' ' :: ')' :: ' ' :: '(' ::
      (units ++ [')'])) = inner := by
  obtain ⟨c, t, hct, hcp⟩ := hhead
  obtain ⟨d, t', hdt, hdp⟩ := hlast
  have hL : ∀ x ∈ (' ' :: inner), (!(x == ')')) = true := by
    intro x hx
    rcases List.mem_cons.mp hx with rfl | hx
    · rfl
    · rcases hchars x hx with hp | rfl
      · simpa using (plainChar_props x hp).2.2.2.2.2.1
      · rfl
  have hlm : leafMatch (("leafValue(".data) ++ ' ' :: inner ++ ' ' :: ')' :: ' ' :: '(' ::
      (units ++ [')'])) = some inner := by
    unfold leafMatch
    rw [List.append_assoc, List.take_left' (by decide), if_pos rfl,
      List.drop_left' (by decide)]
    have hcont : ((' ' :: inner) ++ ' ' :: ')' :: ' ' :: '(' :: (units ++ [')'])).contains ')'
        = true := by
      simp
    show (if ((' ' :: inner) ++ ' ' :: ')' :: ' ' :: '(' :: (units ++ [')'])).contains ')'
          = true
        then some (pyStripChars (List.takeWhile (fun c => !(c == ')'))
          ((' ' :: inner) ++ ' ' :: ')' :: ' ' :: '(' :: (units ++ [')'])))) else none) =
      some inner
    rw [hcont, if_pos rfl]
    rw [takeWhile_append_all (' ' :: inner) _ hL]
    rw [show List.takeWhile (fun c => !(c == ')'))
        (' ' :: ')' :: ' ' :: '(' :: (units ++ [')'])) = [' '] from rfl]
    exact congrArg some (strip_pad_both inner c d t t' hct hdt
      (plainChar_props c hcp).1 (plainChar_props d hdp).1)
  unfold entryBase
  rw [hlm]

theorem entryBase_bare (inner units : List Char)
    (hchars : ∀ c ∈ inner, plainChar c = true ∨ c = ' ')
    (hhead : ∃ c t, inner = c :: t ∧ plainChar c = true)
    (hlast : ∃ d t', inner.reverse = d :: t' ∧ plainChar d = true)
    (hunits : ∀ c ∈ units, plainChar c = true) :
    entryBase (inner ++ ' ' :: '(' :: (units ++ [')'])) = inner := by
  obtain ⟨c, t, hct, hcp⟩ := hhead
  obtain ⟨d, t', hdt, hdp⟩ := hlast
  have hLnp : ∀ x ∈ inner ++ [' '], x ≠ '(' := by
    intro x hx
    rcases List.mem_append.mp hx with hx | hx
    · rcases hchars x hx with hp | rfl
      · exact (plainChar_props x hp).2.2.2.2.1
      · decide
    · rcases List.mem_singleton.mp hx with rfl
      decide
  have hRnp : ∀ x ∈ units ++ [')'], x ≠ '(' := by
    intro x hx
    rcases List.mem_append.mp hx with hx | hx
    · exact (plainChar_props x (hunits x hx)).2.2.2.2.1
    · rcases List.mem_singleton.mp hx with rfl
      decide
  have hsplit : inner ++ ' ' :: '(' :: (units ++ [')']) =
      (inner ++ [' ']) ++ '(' :: (units ++ [')']) := by simp
  have hnotake : (inner ++ ' ' :: '(' :: (units ++ [')'])).take 10 ≠ "leafValue(".data := by
    intro heq
    have h9 : (inner ++ ' ' :: '(' :: (units ++ [')']))[9]? = some '(' := by
      have h0 := congrArg (fun l => l[9]?) heq
      simp only at h0
      rw [List.getElem?_take, if_pos (by omega)] at h0
      rw [h0]
      decide
    have h8 : (inner ++ ' ' :: '(' :: (units ++ [')']))[8]? = some 'e' := by
      have h0 := congrArg (fun l => l[8]?) heq
      simp only at h0
      rw [List.getElem?_take, if_pos (by omega)] at h0
      rw [h0]
      decide
    rw [hsplit] at h9 h8
    rcases Nat.lt_or_ge 9 (inner ++ [' ']).length with hlt | hge
    · rw [List.getElem?_append_left hlt] at h9
      obtain ⟨hb, hv⟩ := List.getElem?_eq_some.mp h9
      exact hLnp _ (hv ▸ List.getElem_mem hb) rfl
    · rw [List.getElem?_append_right hge] at h9
      cases hk : 9 - (inner ++ [' ']).length with
      | zero =>
        have hL9 : (inner ++ [' ']).length = 9 := by omega
        have hinner : inner.length = 8 := by
          rw [List.length_append, List.length_singleton] at hL9
          omega
        rw [List.getElem?_append_left (by omega)] at h8
        rw [List.getElem?_append_right (by omega : inner.length ≤ 8), hinner,
          Nat.sub_self] at h8
        simp at h8
      | succ k =>
        rw [hk, List.getElem?_cons_succ] at h9
        obtain ⟨hb, hv⟩ := List.getElem?_eq_some.mp h9
        exact hRnp _ (hv ▸ List.getElem_mem hb) rfl
  have hlm : leafMatch (inner ++ ' ' :: '(' :: (units ++ [')'])) = none := by
    unfold leafMatch
    rw [if_neg hnotake]
  unfold entryBase
  rw [hlm]
  have hLtake : ∀ x ∈ inner ++ [' '], (!(x == '(')) = true := by
    intro x hx
    have := hLnp x hx
    simpa using this
  rw [hsplit, takeWhile_append_all (inner ++ [' ']) _ hLtake]
  rw [show List.takeWhile (fun c => !(c == '(')) ('(' :: (units ++ [')'])) = [] from rfl]
  rw [List.append_nil]
  exact strip_pad_right inner c d t t' hct hdt
    (plainChar_props c hcp).1 (plainChar_props d hdp).1

/-! ### Pair parsing and dict building on well-formed token lists -/

theorem parsePairs_flat : ∀ (ps : List (String × String × PyLit)),
    (∀ p ∈ ps, pyParseValE p.2.1 = .ok p.2.2) →
    parsePairs (ps.flatMap (fun p => [p.1, p.2.1])) =
      .ok (ps.map (fun p => (p.1, p.2.2)))
  | [], _ => rfl
  | p :: pt, h => by
    rw [List.flatMap_cons]
    show (match pyParseValE p.2.1 with
      | Except.error e => (Except.error e : Except PyErr (List (String × PyLit)))
      | Except.ok w =>
        match parsePairs (pt.flatMap (fun p => [p.1, p.2.1])) with
        | Except.error e => .error e
        | Except.ok tail => .ok ((p.1, w) :: tail)) = _
    rw [h p (List.mem_cons_self p pt),
      parsePairs_flat pt (fun x hx => h x (List.mem_cons_of_mem p hx))]
    rfl

theorem upsert_append : ∀ (d : List (String × PyLit)) (k : String) (v : PyLit),
    k ∉ d.map Prod.fst → upsert d k v = d ++ [(k, v)]
  | [], _, _, _ => rfl
  | e :: t, k, v, h => by
    have hne : ¬ e.1 = k := by
      intro he
      exact h (by rw [List.map_cons, he]; exact List.mem_cons_self k _)
    have ht : k ∉ t.map Prod.fst := by
      intro hm
      exact h (by rw [List.map_cons]; exact List.mem_cons_of_mem _ hm)
    simp only [upsert, if_neg hne, List.cons_append, upsert_append t k v ht]

theorem foldl_upsert_fresh : ∀ (ps : List (String × PyLit)) (d : List (String × PyLit)),
    (∀ p ∈ ps, p.1 ∉ d.map Prod.fst) → (ps.map Prod.fst).Nodup →
    ps.foldl (fun acc p => upsert acc p.1 p.2) d = d ++ ps
  | [], d, _, _ => by simp
  | p :: pt, d, hfresh, hnd => by
    rw [List.foldl_cons, upsert_append d p.1 p.2 (hfresh p (List.mem_cons_self p pt))]
    have hnd2 := List.nodup_cons.mp (by rw [List.map_cons] at hnd; exact hnd)
    have hfresh2 : ∀ q ∈ pt, q.1 ∉ (d ++ [(p.1, p.2)]).map Prod.fst := by
      intro q hq hmem
      rw [List.map_append] at hmem
      rcases List.mem_append.mp hmem with hm | hm
      · exact hfresh q (List.mem_cons_of_mem p hq) hm
      · have hq1 : q.1 ∈ List.map Prod.fst pt := List.mem_map_of_mem Prod.fst hq
        have heq : q.1 = p.1 := by simpa using hm
        rw [heq] at hq1
        exact hnd2.1 hq1
    rw [foldl_upsert_fresh pt (d ++ [(p.1, p.2)]) hfresh2 hnd2.2]
    simp

theorem map_mk_flatMap : ∀ (ps : List (String × String × PyLit)),
    (ps.flatMap (fun p => [p.1.data, p.2.1.data])).map (fun w => (⟨w⟩ : String)) =
      ps.flatMap (fun p => [p.1, p.2.1])
  | [] => rfl
  | p :: pt => by
    rw [List.flatMap_cons, List.flatMap_cons, List.map_append, map_mk_flatMap pt]
    rfl

theorem extract_record_built (ent : List Char) (signal : String)
    (ps : List (String × String × PyLit))
    (hbase : entryBase ent =
      joinTokens (signal.data :: ps.flatMap (fun p => [p.1.data, p.2.1.data])))
    (hsig : plainWord signal)
    (hps : ∀ p ∈ ps, plainWord p.1 ∧ plainWord p.2.1 ∧ pyParseValE p.2.1 = .ok p.2.2)
    (hnd : (ps.map (fun p => p.1)).Nodup)
    (hnsig : ∀ p ∈ ps, p.1 ≠ "signal") :
    extract_record ent = .ok (("signal", PyLit.str signal) ::
      ps.map (fun p => (p.1, p.2.2))) := by
  have hws : ∀ w ∈ (signal.data :: ps.flatMap (fun p => [p.1.data, p.2.1.data])),
      w ≠ [] ∧ ∀ c ∈ w, plainChar c = true := by
    intro w hw
    rcases List.mem_cons.mp hw with rfl | hw
    · exact hsig
    · obtain ⟨p, hp, hwp⟩ := List.mem_flatMap.mp hw
      obtain ⟨h1, h2, _⟩ := hps p hp
      rcases List.mem_cons.mp hwp with rfl | hwp
      · exact h1
      · rcases List.mem_singleton.mp hwp with rfl
        exact h2
  have hsplit : shlexSplit (entryBase ent) =
      .ok (signal :: ps.flatMap (fun p => [p.1, p.2.1])) := by
    rw [hbase, shlexSplit_joinTokens _ hws, List.map_cons, map_mk_flatMap]
  rw [extract_record_cons ent signal (ps.flatMap (fun p => [p.1, p.2.1])) hsplit]
  rw [parsePairs_flat ps (fun p hp => (hps p hp).2.2)]
  show Except.ok ((ps.map (fun p => (p.1, p.2.2))).foldl
    (fun d p => upsert d p.1 p.2) [("signal", PyLit.str signal)]) = _
  have hfresh : ∀ q ∈ ps.map (fun p => (p.1, p.2.2)),
      q.1 ∉ ([("signal", PyLit.str signal)] : List (String × PyLit)).map Prod.fst := by
    intro q hq hmem
    obtain ⟨p, hp, rfl⟩ := List.mem_map.mp hq
    have : p.1 = "signal" := by simpa using hmem
    exact hnsig p hp this
  have hnd2 : ((ps.map (fun p => (p.1, p.2.2))).map Prod.fst).Nodup := by
    rw [List.map_map]
    exact hnd
  rw [foldl_upsert_fresh (ps.map (fun p => (p.1, p.2.2)))
    [("signal", PyLit.str signal)] hfresh hnd2]
  rfl

theorem extract_records_single (ent : List Char) (rec : MetaRecord)
    (hsemi : ∀ c ∈ ent, c ≠ ';')
    (hhead : ∃ c t, ent = c :: t ∧ isPySpace c = false)
    (hlast : ∃ d t', ent.reverse = d :: t' ∧ isPySpace d = false ∧ (d == ',') = false)
    (hrec : extract_record ent = .ok rec) :
    extract_records ⟨ent⟩ = .ok [rec] := by
  obtain ⟨c, t, hct, hc⟩ := hhead
  obtain ⟨d, t', hdt, hd1, hd2⟩ := hlast
  have hstrip : pyStripChars ent = ent := strip_of_ends ent c d t t' hct hdt hc hd1
  have hrs : rstripComma (pyStripChars ent) = ent := by
    rw [hstrip]
    exact rstrip_of_last ent d t' hdt hd2
  have hne2 : (!(pyStripChars ent).isEmpty) = true := by
    rw [hstrip, hct]
    rfl
  have hfilter : ([ent].filter (fun e => !(pyStripChars e).isEmpty)) = [ent] := by
    rw [List.filter_cons, if_pos hne2, List.filter_nil]
  show extractLoop (((splitSemis ent).filter (fun e => !(pyStripChars e).isEmpty)).map
    (fun e => rstripComma (pyStripChars e))) = _
  rw [splitSemis_no_semi ent hsemi, hfilter]
  simp only [List.map_cons, List.map_nil, hrs, extractLoop, hrec]

/-! ### Full pipeline on built entries -/

theorem flatMap_map_pair (ps : List (String × String × PyLit)) :
    (ps.map (fun p => (p.1, p.2.1))).flatMap (fun q => [q.1.data, q.2.data]) =
      ps.flatMap (fun p => [p.1.data, p.2.1.data]) := by
  induction ps with
  | nil => rfl
  | cons p pt ih => simp only [List.map_cons, List.flatMap_cons, ih]

theorem entry_chars_wrap (inner units : List Char) (x : Char)
    (hx : x ∈ ("leafValue(".data) ++ ' ' :: inner ++ ' ' :: ')' :: ' ' :: '(' ::
      (units ++ [')'])) :
    x ∈ "leafValue(".data ∨ x = ' ' ∨ x = ')' ∨ x = '(' ∨ x ∈ inner ∨ x ∈ units := by
  rcases List.mem_append.mp hx with hx2 | hx2
  · rcases List.mem_append.mp hx2 with hx3 | hx3
    · exact Or.inl hx3
    · rcases List.mem_cons.mp hx3 with rfl | hx4
      · exact Or.inr (Or.inl rfl)
      · exact Or.inr (Or.inr (Or.inr (Or.inr (Or.inl hx4))))
  · rcases List.mem_cons.mp hx2 with rfl | hx3
    · exact Or.inr (Or.inl rfl)
    · rcases List.mem_cons.mp hx3 with rfl | hx4
      · exact Or.inr (Or.inr (Or.inl rfl))
      · rcases List.mem_cons.mp hx4 with rfl | hx5
        · exact Or.inr (Or.inl rfl)
        · rcases List.mem_cons.mp hx5 with rfl | hx6
          · exact Or.inr (Or.inr (Or.inr (Or.inl rfl)))
          · rcases List.mem_append.mp hx6 with hx7 | hx7
            · exact Or.inr (Or.inr (Or.inr (Or.inr (Or.inr hx7))))
            · rcases List.mem_singleton.mp hx7 with rfl
              exact Or.inr (Or.inr (Or.inl rfl))

theorem entry_chars_bare (inner units : List Char) (x : Char)
    (hx : x ∈ inner ++ ' ' :: '(' :: (units ++ [')'])) :
    x = ' ' ∨ x = ')' ∨ x = '(' ∨ x ∈ inner ∨ x ∈ units := by
  rcases List.mem_append.mp hx with hx2 | hx2
  · exact Or.inr (Or.inr (Or.inr (Or.inl hx2)))
  · rcases List.mem_cons.mp hx2 with rfl | hx3
    · exact Or.inl rfl
    · rcases List.mem_cons.mp hx3 with rfl | hx4
      · exact Or.inr (Or.inr (Or.inl rfl))
      · rcases List.mem_append.mp hx4 with hx5 | hx5
        · exact Or.inr (Or.inr (Or.inr (Or.inr hx5)))
        · rcases List.mem_singleton.mp hx5 with rfl
          exact Or.inr (Or.inl rfl)

theorem tokens_plain (signal : String) (ps : List (String × String × PyLit))
    (hsig : plainWord signal)
    (hps : ∀ p ∈ ps, plainWord p.1 ∧ plainWord p.2.1 ∧ pyParseValE p.2.1 = .ok p.2.2) :
    ∀ w ∈ (signal.data :: ps.flatMap (fun p => [p.1.data, p.2.1.data])),
      w ≠ [] ∧ ∀ c ∈ w, plainChar c = true := by
  intro w hw
  rcases List.mem_cons.mp hw with rfl | hw
  · exact hsig
  · obtain ⟨p, hp, hwp⟩ := List.mem_flatMap.mp hw
    obtain ⟨h1, h2, _⟩ := hps p hp
    rcases List.mem_cons.mp hwp with rfl | hwp
    · exact h1
    · rcases List.mem_singleton.mp hwp with rfl
      exact h2

theorem extract_records_wrapped (inner : List Char) (signal units : String)
    (ps : List (String × String × PyLit))
    (hinner : inner = joinTokens (signal.data :: ps.flatMap (fun p => [p.1.data, p.2.1.data])))
    (hsig : plainWord signal)
    (hps : ∀ p ∈ ps, plainWord p.1 ∧ plainWord p.2.1 ∧ pyParseValE p.2.1 = .ok p.2.2)
    (hnd : (ps.map (fun p => p.1)).Nodup)
    (hnsig : ∀ p ∈ ps, p.1 ≠ "signal")
    (hunits : ∀ c ∈ units.data, plainChar c = true) :
    extract_records ⟨"leafValue(".data ++ ' ' :: inner ++ ' ' :: ')' :: ' ' :: '(' ::
        (units.data ++ [')'])⟩ =
      .ok [("signal", PyLit.str signal) :: ps.map (fun p => (p.1, p.2.2))] := by
  have hws := tokens_plain signal ps hsig hps
  have hchars : ∀ c ∈ inner, plainChar c = true ∨ c = ' ' := by
    rw [hinner]
    exact joinTokens_chars _ (fun w hw => (hws w hw).2)
  have hheadI : ∃ c t, inner = c :: t ∧ plainChar c = true := by
    cases hsd : signal.data with
    | nil => exact absurd hsd hsig.1
    | cons c t0 =>
      obtain ⟨t, ht⟩ := joinTokens_head c t0 (ps.flatMap (fun p => [p.1.data, p.2.1.data]))
      refine ⟨c, t, ?_, hsig.2 c (by rw [hsd]; exact List.mem_cons_self c t0)⟩
      rw [hinner, hsd]
      exact ht
  have hlastI : ∃ d t', inner.reverse = d :: t' ∧ plainChar d = true := by
    rw [hinner]
    exact joinTokens_last _ (List.cons_ne_nil _ _) hws
  have hbase : entryBase ("leafValue(".data ++ ' ' :: inner ++ ' ' :: ')' :: ' ' :: '(' ::
      (units.data ++ [')'])) =
      joinTokens (signal.data :: ps.flatMap (fun p => [p.1.data, p.2.1.data])) :=
    (entryBase_wrap inner units.data hchars hheadI hlastI).trans hinner
  have hrec := extract_record_built _ signal ps hbase hsig hps hnd hnsig
  have hsemi : ∀ x ∈ ("leafValue(".data ++ ' ' :: inner ++ ' ' :: ')' :: ' ' :: '(' ::
      (units.data ++ [')'])), x ≠ ';' := by
    intro x hx
    rcases entry_chars_wrap inner units.data x hx with h | rfl | rfl | rfl | h | h
    · exact (by decide : ∀ c ∈ "leafValue(".data, c ≠ ';') x h
    · decide
    · decide
    · decide
    · rcases hchars x h with hp | rfl
      · exact (plainChar_props x hp).2.2.2.2.2.2.1
      · decide
    · exact (plainChar_props x (hunits x h)).2.2.2.2.2.2.1
  have hhead : ∃ ch tl, ("leafValue(".data ++ ' ' :: inner ++ ' ' :: ')' :: ' ' :: '(' ::
      (units.data ++ [')'])) = ch :: tl ∧ isPySpace ch = false := by
    refine ⟨'l', "eafValue(".data ++ ' ' :: inner ++ ' ' :: ')' :: ' ' :: '(' ::
      (units.data ++ [')']), ?_, by decide⟩
    rw [show "leafValue(".data = 'l' :: "eafValue(".data from by decide]
    simp only [List.cons_append]
  have hlast : ∃ d t', ("leafValue(".data ++ ' ' :: inner ++ ' ' :: ')' :: ' ' :: '(' ::
      (units.data ++ [')'])).reverse = d :: t' ∧ isPySpace d = false ∧ (d == ',') = false := by
    refine ⟨')', (("leafValue(".data ++ ' ' :: inner) ++
      (' ' :: ')' :: ' ' :: '(' :: units.data)).reverse, ?_, by decide, by decide⟩
    have hassoc : ("leafValue(".data ++ ' ' :: inner ++ ' ' :: ')' :: ' ' :: '(' ::
        (units.data ++ [')'])) = (("leafValue(".data ++ ' ' :: inner) ++
        (' ' :: ')' :: ' ' :: '(' :: units.data)) ++ [')'] := by
      simp
    rw [hassoc, List.reverse_append]
    rfl
  exact extract_records_single _ _ hsemi hhead hlast hrec

theorem extract_records_bare (inner : List Char) (signal units : String)
    (ps : List (String × String × PyLit))
    (hinner : inner = joinTokens (signal.data :: ps.flatMap (fun p => [p.1.data, p.2.1.data])))
    (hsig : plainWord signal)
    (hps : ∀ p ∈ ps, plainWord p.1 ∧ plainWord p.2.1 ∧ pyParseValE p.2.1 = .ok p.2.2)
    (hnd : (ps.map (fun p => p.1)).Nodup)
    (hnsig : ∀ p ∈ ps, p.1 ≠ "signal")
    (hunits : ∀ c ∈ units.data, plainChar c = true) :
    extract_records ⟨inner ++ ' ' :: '(' :: (units.data ++ [')'])⟩ =
      .ok [("signal", PyLit.str signal) :: ps.map (fun p => (p.1, p.2.2))] := by
  have hws := tokens_plain signal ps hsig hps
  have hchars : ∀ c ∈ inner, plainChar c = true ∨ c = ' ' := by
    rw [hinner]
    exact joinTokens_chars _ (fun w hw => (hws w hw).2)
  have hheadI : ∃ c t, inner = c :: t ∧ plainChar c = true := by
    cases hsd : signal.data with
    | nil => exact absurd hsd hsig.1
    | cons c t0 =>
      obtain ⟨t, ht⟩ := joinTokens_head c t0 (ps.flatMap (fun p => [p.1.data, p.2.1.data]))
      refine ⟨c, t, ?_, hsig.2 c (by rw [hsd]; exact List.mem_cons_self c t0)⟩
      rw [hinner, hsd]
      exact ht
  have hlastI : ∃ d t', inner.reverse = d :: t' ∧ plainChar d = true := by
    rw [hinner]
    exact joinTokens_last _ (List.cons_ne_nil _ _) hws
  have hbase : entryBase (inner ++ ' ' :: '(' :: (units.data ++ [')'])) =
      joinTokens (signal.data :: ps.flatMap (fun p => [p.1.data, p.2.1.data])) :=
    (entryBase_bare inner units.data hchars hheadI hlastI hunits).trans hinner
  have hrec := extract_record_built _ signal ps hbase hsig hps hnd hnsig
  have hsemi : ∀ x ∈ (inner ++ ' ' :: '(' :: (units.data ++ [')'])), x ≠ ';' := by
    intro x hx
    rcases entry_chars_bare inner units.data x hx with rfl | rfl | rfl | h | h
    · decide
    · decide
    · decide
    · rcases hchars x h with hp | rfl
      · exact (plainChar_props x hp).2.2.2.2.2.2.1
      · decide
    · exact (plainChar_props x (hunits x h)).2.2.2.2.2.2.1
  have hhead : ∃ ch tl, (inner ++ ' ' :: '(' :: (units.data ++ [')'])) = ch :: tl ∧
      isPySpace ch = false := by
    obtain ⟨c, t, hct, hcp⟩ := hheadI
    refine ⟨c, t ++ ' ' :: '(' :: (units.data ++ [')']), ?_, (plainChar_props c hcp).1⟩
    rw [hct, List.cons_append]
  have hlast : ∃ d t', (inner ++ ' ' :: '(' :: (units.data ++ [')'])).reverse = d :: t' ∧
      isPySpace d = false ∧ (d == ',') = false := by
    refine ⟨')', (inner ++ (' ' :: '(' :: units.data)).reverse, ?_, by decide, by decide⟩
    have hassoc : (inner ++ ' ' :: '(' :: (units.data ++ [')'])) =
        (inner ++ (' ' :: '(' :: units.data)) ++ [')'] := by
      simp
    rw [hassoc, List.reverse_append]
    rfl
  exact extract_records_single _ _ hsemi hhead hlast hrec

/-- C2 witness: the elementwise characterisation instantiated at the
concrete array input `[3/4, 5]`, `fs = 2`, `N = 6`, element 1. -/
theorem generate_coherent_frequencies_step_witness :
    (generate_coherent_frequencies ⟨[2], [(3 : ℚ)/4, 5]⟩ 2 6).kData.getD 1 0 =
      (if Int.gcd ⌊([(3 : ℚ)/4, 5].getD 1 0) / 2 * ((6 : ℤ) : ℚ)⌋ 6 = 1
        then ⌊([(3 : ℚ)/4, 5].getD 1 0) / 2 * ((6 : ℤ) : ℚ)⌋
        else ⌊([(3 : ℚ)/4, 5].getD 1 0) / 2 * ((6 : ℤ) : ℚ)⌋ - 1) ∧
    (generate_coherent_frequencies ⟨[2], [(3 : ℚ)/4, 5]⟩ 2 6).fData.getD 1 0 =
      ((generate_coherent_frequencies ⟨[2], [(3 : ℚ)/4, 5]⟩ 2 6).kData.getD 1 0 : ℚ) /
        ((6 : ℤ) : ℚ) * 2 :=
  generate_coherent_frequencies_step.1 ⟨[2], [(3 : ℚ)/4, 5]⟩ 2 6 1
    (by norm_num) (by decide) (by decide)

end LoadUtils
